import Mathlib

/-!
Shallow embedding of the image-gallery processor (Go, `src/unnamed/part_000`,
the current revision of `processor.go`): the path classifier and tree walker
(`buildImageList`), the per-item derivation engine (`processImage` with
`generateThumbnail` / `generateSlideImage` / `generateImageTiles`), and the
sequential aggregation loop in `main` that stores each result into the
per-directory map and finally writes one `images.json` per bucket.

The external vips engine (decode, thumbnail resampling, JPEG export, dzsave)
is modelled as an abstract `Engine` record of pure functions from paths to
pixel dimensions; filesystem writes are recorded as `Asset` values; log lines
as plain strings.  Machine integers hold pixel dimensions far below any
overflow bound, so they are modelled as `Nat`.
-/

namespace ImageProc

/-! ### String helpers mirroring Go's `strings` and `path/filepath` -/

/-- Go `strings.HasPrefix` on character lists: `listHasPre n h` is true iff
`n` is a leading segment of `h`. -/
def listHasPre : List Char → List Char → Bool
  | [], _ => true
  | _ :: _, [] => false
  | a :: n, b :: h => a == b && listHasPre n h

/-- Go `strings.Contains` on character lists: `listHasSub n h` is true iff
`n` occurs contiguously inside `h`. -/
def listHasSub (n : List Char) : List Char → Bool
  | [] => listHasPre n []
  | c :: t => listHasPre n (c :: t) || listHasSub n t

/-- Go `strings.Contains hay needle`. -/
def strContains (hay needle : String) : Bool :=
  listHasSub needle.toList hay.toList

/-- Go `strings.HasSuffix s suf`. -/
def endsWithL (s suf : String) : Bool :=
  listHasPre suf.toList.reverse s.toList.reverse

/-- Go `filepath.Join parent name` as used by the walker (`parent` empty only
for the root argument itself). -/
def joinP (p n : String) : String :=
  if p = "" then n else p ++ "/" ++ n

/-- Go `filepath.Dir`: everything before the final path separator, `"."` when
there is none. -/
def dirOf (p : String) : String :=
  let r := p.toList.reverse
  if r.any (fun c => c == '/') then
    String.mk ((r.dropWhile (fun c => c != '/')).drop 1).reverse
  else "."

/-- Splits a reversed character list into (reversed stem, reversed extension),
mirroring Go `filepath.Ext`: the extension starts at the final dot of the
final path element. -/
def splitExtRev (r : List Char) : List Char × List Char :=
  let a := r.takeWhile (fun c => !(c == '.' || c == '/'))
  match r.drop a.length with
  | '.' :: rest => (rest, a ++ ['.'])
  | _ => (r, [])

/-- Go `filepath.Ext`. -/
def extOf (s : String) : String :=
  String.mk (splitExtRev s.toList.reverse).2.reverse

/-- Go `strings.TrimSuffix(name, filepath.Ext(name))`: the base name of a
file, extension stripped. -/
def baseName (s : String) : String :=
  String.mk (splitExtRev s.toList.reverse).1.reverse

/-- True iff the string contains no path separator. -/
def noSlashS (s : String) : Bool :=
  s.toList.all (fun c => c != '/')

/-! ### The path classifier -/

/-- The fixed ignore-substring list from `buildImageList`. -/
def skipFileNames : List String :=
  [".DS_Store", "thumbnail", "display", "html", "dzi", "json", "xml"]

/-- Ignore test on a character list. -/
def ignoredL (l : List Char) : Bool :=
  skipFileNames.any (fun s => listHasSub s.toList l)

/-- The walker's skip rule: the entry name contains one of the fixed ignore
substrings. -/
def ignoredName (n : String) : Bool :=
  ignoredL n.toList

/-! ### Basic substring lemmas -/

theorem listHasPre_refl (n : List Char) : listHasPre n n = true := by
  induction n with
  | nil => rfl
  | cons a t ih => simp [listHasPre, ih]

theorem listHasPre_append (n h y : List Char) (hp : listHasPre n h = true) :
    listHasPre n (h ++ y) = true := by
  induction n generalizing h with
  | nil => rfl
  | cons a t ih =>
    cases h with
    | nil => simp [listHasPre] at hp
    | cons b hh =>
      simp [listHasPre] at hp ⊢
      exact ⟨hp.1, ih hh hp.2⟩

theorem listHasSub_of_pre (n h : List Char) (hp : listHasPre n h = true) :
    listHasSub n h = true := by
  cases h with
  | nil => simpa [listHasSub] using hp
  | cons c t => simp [listHasSub, hp]

theorem listHasSub_cons (n t : List Char) (c : Char)
    (hs : listHasSub n t = true) : listHasSub n (c :: t) = true := by
  simp [listHasSub, hs]

theorem listHasSub_append_left (n x h : List Char)
    (hs : listHasSub n h = true) : listHasSub n (x ++ h) = true := by
  induction x with
  | nil => simpa using hs
  | cons c t ih => simpa using listHasSub_cons n (t ++ h) c ih

theorem listHasSub_append_right (n h y : List Char)
    (hs : listHasSub n h = true) : listHasSub n (h ++ y) = true := by
  induction h with
  | nil =>
    cases n with
    | nil =>
      cases y with
      | nil => rfl
      | cons c t => simp [listHasSub, listHasPre]
    | cons a t => simp [listHasSub, listHasPre] at hs
  | cons c t ih =>
    simp only [listHasSub, Bool.or_eq_true] at hs
    rcases hs with hp | hsub
    · exact listHasSub_of_pre _ _ (by simpa using listHasPre_append _ _ y hp)
    · exact listHasSub_cons _ _ _ (ih hsub)

theorem listHasSub_middle (n x y : List Char) :
    listHasSub n (x ++ n ++ y) = true := by
  rw [List.append_assoc]
  exact listHasSub_append_left _ _ _
    (listHasSub_append_right _ _ _ (listHasSub_of_pre _ _ (listHasPre_refl n)))

theorem listHasPre_split (n x y : List Char)
    (hp : listHasPre n (x ++ y) = true) :
    listHasPre n x = true ∨
      (x.length < n.length ∧ listHasPre (n.drop x.length) y = true) := by
  induction x generalizing n with
  | nil =>
    cases n with
    | nil => left; rfl
    | cons a t => right; exact ⟨by simp, by simpa using hp⟩
  | cons b xs ih =>
    cases n with
    | nil => left; rfl
    | cons a t =>
      simp only [List.cons_append, listHasPre, Bool.and_eq_true] at hp
      rcases ih t hp.2 with h1 | h2
      · left; simp [listHasPre, hp.1, h1]
      · right
        exact ⟨by simpa [Nat.succ_lt_succ_iff] using h2.1, by simpa using h2.2⟩

theorem listHasSub_split (n x y : List Char)
    (hs : listHasSub n (x ++ y) = true) :
    listHasSub n x = true ∨ listHasSub n y = true ∨
      ∃ k, 0 < k ∧ k < n.length ∧ listHasPre (n.drop k) y = true := by
  induction x with
  | nil => right; left; simpa using hs
  | cons c t ih =>
    simp only [List.cons_append, listHasSub, Bool.or_eq_true] at hs
    rcases hs with hp | hsub
    · rcases listHasPre_split n (c :: t) y hp with h1 | h2
      · left; exact listHasSub_of_pre _ _ h1
      · right; right
        exact ⟨(c :: t).length, by simp, h2.1, h2.2⟩
    · rcases ih hsub with h1 | h2
      · left; exact listHasSub_cons _ _ _ h1
      · right; exact h2

/-- Decidable check that no nonempty tail of the needle `n` is a prefix of
`y`: then no occurrence of `n` can straddle the boundary of `x ++ y`. -/
def spanFree (n y : List Char) : Bool :=
  (List.range n.length).all (fun k => k == 0 || !(listHasPre (n.drop k) y))

theorem listHasSub_append_none (n x y : List Char)
    (hx : listHasSub n x = false) (hy : listHasSub n y = false)
    (hf : spanFree n y = true) : listHasSub n (x ++ y) = false := by
  by_contra hcon
  rw [Bool.not_eq_false] at hcon
  rcases listHasSub_split n x y hcon with h1 | h2 | ⟨k, hk0, hkn, hkp⟩
  · rw [h1] at hx; exact Bool.true_eq_false.mp hx
  · rw [h2] at hy; exact Bool.true_eq_false.mp hy
  · have := List.all_eq_true.mp hf k (List.mem_range.mpr hkn)
    simp only [Bool.or_eq_true, beq_iff_eq, Bool.not_eq_eq_eq_not,
      Bool.not_true] at this
    rcases this with h | h
    · omega
    · rw [hkp] at h; exact Bool.true_eq_false.mp h

/-- Whether a suffix `y` is harmless: no ignore needle occurs inside it, and
no ignore needle can straddle onto it. -/
def safeSuffix (y : List Char) : Bool :=
  skipFileNames.all (fun s => !(listHasSub s.toList y) && spanFree s.toList y)

theorem ignoredL_append_false (b y : List Char)
    (hb : ignoredL b = false) (hy : safeSuffix y = true) :
    ignoredL (b ++ y) = false := by
  unfold ignoredL at hb ⊢
  rw [List.any_eq_false] at hb ⊢
  intro s hsmem
  have hyb := List.all_eq_true.mp hy s hsmem
  simp only [Bool.and_eq_true, Bool.not_eq_eq_eq_not, Bool.not_true] at hyb
  have hbs := hb s hsmem
  simp only [Bool.not_eq_true] at hbs ⊢
  exact listHasSub_append_none _ _ _ hbs hyb.1 hyb.2

theorem ignoredL_of_append (b y : List Char)
    (h : ignoredL (b ++ y) = false) : ignoredL b = false := by
  unfold ignoredL at h ⊢
  rw [List.any_eq_false] at h ⊢
  intro s hsmem
  have := h s hsmem
  simp only [Bool.not_eq_true] at this ⊢
  by_contra hcon
  rw [Bool.not_eq_false] at hcon
  rw [listHasSub_append_right _ _ _ hcon] at this
  exact Bool.true_eq_false.mp this

/-! ### Data model

`ImageData` mirrors the Go struct of `src/unnamed/part_000` (the JSON-visible
fields; the private `path`/`name` fields live in `Item`).  In the JSON
encoding `tiles`, `max_width`, `max_height` carry `omitempty`: the field is
absent exactly when the value is the zero value (`""` resp. `0`). -/

structure ImageData where
  fullPath : String
  thumbPath : String
  displayPath : String
  width : Nat
  height : Nat
  tiles : String
  maxWidth : Nat
  maxHeight : Nat
deriving DecidableEq, Repr

/-- One work item: the private `path`/`name` fields with which
`buildImageList` creates an `ImageData` before sending it on the channel. -/
structure Item where
  path : String
  name : String
deriving DecidableEq, Repr

/-- JSON `omitempty` on `tiles`: the field appears iff the string is
nonempty. -/
def jsonHasTiles (d : ImageData) : Bool := d.tiles != ""

/-- JSON `omitempty` on `max_width` / `max_height`: a field appears iff its
value is nonzero. -/
def jsonHasMaxFields (d : ImageData) : Bool :=
  d.maxWidth != 0 || d.maxHeight != 0

/-- The vips crop/interest mode passed to `NewThumbnailFromFile`; the code
always passes `vips.InterestingNone` (no cropping, no gravity bias). -/
inductive Interest where
  | noCrop
  | centre
deriving DecidableEq, Repr

/-- Filesystem writes performed by the derivation engine, with the engine
parameters used to produce them. -/
inductive Asset where
  | thumbA (path : String) (dims : Nat × Nat) (capW targetH : Nat) (i : Interest)
  | slideA (path : String) (dims : Nat × Nat) (capW targetH : Nat) (i : Interest)
  | tilesA (srcPath outBase : String) (centred : Bool)
  | convertA (path : String)
deriving DecidableEq, Repr

/-- The external vips capability: decoding a path yields pixel dimensions;
`thumbFromFile path capW targetH interest` yields the dimensions of the
resampled image (modelling `vips.NewThumbnailFromFile`). -/
structure Engine where
  decode : String → Nat × Nat
  thumbFromFile : String → Nat → Nat → Interest → Nat × Nat

/-- Go `math.MaxInt16`, the width cap passed to every thumbnail call. -/
def maxInt16 : Nat := 32767

def thumbnailHeight : Nat := 400

def slideHeight : Nat := 2000

def tileMinDimension : Nat := 4100

/-- Result of `processImage` for one item: the mutated `ImageData`, the files
written, and the lines logged. -/
structure ProcResult where
  data : ImageData
  assets : List Asset
  logs : List String
deriving DecidableEq, Repr

/-! ### The derivation engine (`processImage` and helpers of part_000) -/

/-- Model of `generateThumbnail`: resample the full image to the fixed
thumbnail height with unconstrained width and no cropping, write it at the
thumbnail path.  The record is not touched. -/
def generateThumbnail (E : Engine) (d : ImageData) : Asset :=
  Asset.thumbA d.thumbPath
    (E.thumbFromFile d.fullPath maxInt16 thumbnailHeight Interest.noCrop)
    maxInt16 thumbnailHeight Interest.noCrop

/-- Model of `generateSlideImage`: resample to the slide height, write at the
display path, then overwrite the record's width/height with the slide image's
actual output dimensions. -/
def generateSlideImage (E : Engine) (d : ImageData) : ImageData × Asset :=
  let dims := E.thumbFromFile d.fullPath maxInt16 slideHeight Interest.noCrop
  ({ d with width := dims.1, height := dims.2 },
   Asset.slideA d.displayPath dims maxInt16 slideHeight Interest.noCrop)

/-- Model of `generateImageTiles`: shell out to `vips dzsave` on the source
path, record the tile root `<dir>/<name>_files`, then try to delete the
incidental `.dzi` sidecar — `rmOk` tells whether `os.Remove` succeeds; on
failure the error is only logged. -/
def generateImageTiles (rmOk : String → Bool) (it : Item) (d : ImageData) :
    ImageData × List Asset × List String :=
  let imageBaseDir := joinP (dirOf it.path) it.name
  let rmLogs :=
    if rmOk (imageBaseDir ++ ".dzi") then []
    else ["remove failed: " ++ imageBaseDir ++ ".dzi"]
  ({ d with tiles := imageBaseDir ++ "_files" },
   [Asset.tilesA it.path imageBaseDir true],
   ("Generating tiles for " ++ it.path) :: rmLogs)

/-- Model of `processImage` (part_000): decode, convert PNG sources to JPEG
(note: at that point `FullPath` is still empty, so the converted file lands
at `filepath.Join("", name + ".jpg") = name + ".jpg"`), fill the derived
paths, record the decoded dimensions as both current and max dimensions,
always generate a thumbnail, conditionally a slide image (overwriting
width/height), conditionally a tile pyramid. -/
def processImage (E : Engine) (rmOk : String → Bool) (it : Item) : ProcResult :=
  let dir := dirOf it.path
  let wh := E.decode it.path
  let convAssets : List Asset :=
    if extOf it.path == ".png" then [Asset.convertA (joinP "" (it.name ++ ".jpg"))]
    else []
  let convLogs : List String :=
    if extOf it.path == ".png" then ["Retyping image to jpg: " ++ it.path]
    else []
  let d0 : ImageData :=
    { fullPath := joinP dir (it.name ++ ".jpg")
      thumbPath := joinP dir (it.name ++ "-thumbnail" ++ ".jpg")
      displayPath := joinP dir (it.name ++ "-display" ++ ".jpg")
      width := wh.1
      height := wh.2
      tiles := ""
      maxWidth := wh.1
      maxHeight := wh.2 }
  let thumbAsset := generateThumbnail E d0
  let slideStep :=
    if wh.1 > slideHeight || wh.2 > slideHeight then
      let s := generateSlideImage E d0
      (s.1, [s.2])
    else (d0, [])
  let tileStep :=
    if wh.1 > tileMinDimension || wh.2 > tileMinDimension then
      generateImageTiles rmOk it slideStep.1
    else (slideStep.1, [], [])
  { data := tileStep.1
    assets := convAssets ++ [thumbAsset] ++ slideStep.2 ++ tileStep.2.1
    logs := convLogs ++ tileStep.2.2 }

/-! ### The tree walker (`buildImageList`) -/

/-- A filesystem tree: names are single path elements.  Children lists model
the order in which `filepath.WalkDir` enumerates directory entries (Go reads
dirents sorted lexically, so a faithful tree has lexically sorted
children). -/
inductive FS where
  | file (name : String)
  | dir (name : String) (children : List FS)
deriving Repr

def FS.nameOf : FS → String
  | .file n => n
  | .dir n _ => n

mutual

/-- Model of the `filepath.WalkDir` callback in `buildImageList`.  Returns
the manifest buckets created and the work items emitted, in visit order.
Crucially, on an ignore-substring match the callback returns `nil`, which for
a directory means `WalkDir` still descends into it; only the `_files` branch
returns `filepath.SkipDir`. -/
def walkFS (pp : String) : FS → List String × List Item
  | .file n =>
    if ignoredName n then ([], [])
    else ([], [⟨joinP pp n, baseName n⟩])
  | .dir n cs =>
    if ignoredName n then walkList (joinP pp n) cs
    else if endsWithL n "_files" then ([], [])
    else
      let s := walkList (joinP pp n) cs
      (joinP pp n :: s.1, s.2)

/-- Walks the children of one directory in enumeration order, concatenating
buckets and items. -/
def walkList (p : String) : List FS → List String × List Item
  | [] => ([], [])
  | e :: es =>
    let a := walkFS p e
    let b := walkList p es
    (a.1 ++ b.1, a.2 ++ b.2)

end

/-- Model of `buildImageList` applied to the root argument: `WalkDir` first
visits the root itself with its own name. -/
def buildImageList (t : FS) : List String × List Item :=
  walkFS "" t

/-! ### The aggregation loop of `main` -/

/-- Capacity of the work-item channel: `make(chan *ImageData, 100)`. -/
def chanCapacity : Nat := 100

/-- The loop `for imageData := range imageDataChan { processImage; store }`,
draining the already-closed channel in emission order (it is reached only
when `buildImageList` returned, i.e. when at most `chanCapacity` items were
sent).  Each result is stored via
`imageDataMap[filepath.Dir(path)][name] = imageData`.  Storing into a
directory for which the walker never created a bucket assigns into a nil map,
which panics — modelled as `none`. -/
def runItems (E : Engine) (rmOk : String → Bool) (bs : List String) :
    List Item → Option (List (String × String × ImageData))
  | [] => some []
  | it :: rest =>
    let r := processImage E rmOk it
    if bs.contains (dirOf it.path) then
      match runItems E rmOk bs rest with
      | some l => some ((dirOf it.path, it.name, r.data) :: l)
      | none => none
    else none

/-- The whole run of `main` over a tree.  `buildImageList` is called
synchronously on the main goroutine: it must finish sending every work item
into the capacity-100 channel before the consuming loop starts, so if the
walker emits more than `chanCapacity` items the next send blocks with no
receiver and the Go runtime aborts the process (fatal "all goroutines are
asleep" deadlock) before anything is processed — modelled as `none`.
Otherwise every item is processed in emission order and the bucket list (each
bucket receives one `images.json`) is returned with the stored results;
`none` from `runItems` models the nil-map panic. -/
def run (E : Engine) (rmOk : String → Bool) (t : FS) :
    Option (List String × List (String × String × ImageData)) :=
  let w := buildImageList t
  if w.2.length > chanCapacity then none
  else
    match runItems E rmOk w.1 w.2 with
    | some rs => some (w.1, rs)
    | none => none

/-- Lookup in the final per-directory manifest: later stores overwrite
earlier ones under the same directory and base name (Go map assignment). -/
def mLookup (rs : List (String × String × ImageData)) (d b : String) :
    Option ImageData :=
  match rs with
  | [] => none
  | e :: t =>
    match mLookup t d b with
    | some v => some v
    | none => if e.1 == d && e.2.1 == b then some e.2.2 else none

/-! ### Derived-asset predicates -/

/-- Whether a slide/display image was written. -/
def slideMade (r : ProcResult) : Bool :=
  r.assets.any fun a =>
    match a with
    | .slideA _ _ _ _ _ => true
    | _ => false

/-- Whether a tile pyramid was generated. -/
def tilesMade (r : ProcResult) : Bool :=
  r.assets.any fun a =>
    match a with
    | .tilesA _ _ _ => true
    | _ => false

/-! ### Concrete engines and removal oracles used by witnesses -/

/-- A small source image: every decode yields 300 x 200. -/
def engineSmall : Engine := ⟨fun _ => (300, 200), fun _ _ t _ => (t + 1, t)⟩

/-- A large source image: every decode yields 5000 x 3000; resampling to
height `t` yields width `t * 5 / 3`. -/
def engineLarge : Engine := ⟨fun _ => (5000, 3000), fun _ _ t _ => (t * 5 / 3, t)⟩

def rmAlways : String → Bool := fun _ => true

def rmNever : String → Bool := fun _ => false

/-! ### Helper lemmas about `processImage` -/

theorem processImage_data_eq (E : Engine) (rmOk rmOk2 : String → Bool)
    (it : Item) :
    (processImage E rmOk it).data = (processImage E rmOk2 it).data ∧
    (processImage E rmOk it).assets = (processImage E rmOk2 it).assets := by
  unfold processImage generateImageTiles
  constructor <;> (dsimp only []) <;> (repeat' split) <;> rfl

theorem runItems_rmOk (E : Engine) (rmOk rmOk2 : String → Bool)
    (bs : List String) (l : List Item) :
    runItems E rmOk bs l = runItems E rmOk2 bs l := by
  induction l with
  | nil => rfl
  | cons it rest ih =>
    unfold runItems
    dsimp only []
    rw [(processImage_data_eq E rmOk rmOk2 it).1, ih]

theorem run_rmOk (E : Engine) (rmOk rmOk2 : String → Bool) (t : FS) :
    run E rmOk t = run E rmOk2 t := by
  unfold run
  dsimp only []
  rw [runItems_rmOk E rmOk rmOk2]

/-! ### Claims C1, C2, C4, C5, C7: the per-item derivation record -/

/-- Claim C1, counterexample: a 300 x 200 image is far below the tiling
threshold, so by the claim the emitted record should carry no `max_width` /
`max_height` JSON fields; but `processImage` of part_000 assigns
`MaxWidth`/`MaxHeight` unconditionally from the decoded dimensions, so the
`omitempty` fields are nonzero and are serialized. -/
theorem c1_maxfields_counterexample :
    ignoredName "a.jpg" = false ∧
    (engineSmall.decode "r/a.jpg").1 ≤ tileMinDimension ∧
    (engineSmall.decode "r/a.jpg").2 ≤ tileMinDimension ∧
    jsonHasTiles (processImage engineSmall rmAlways ⟨"r/a.jpg", "a"⟩).data = false ∧
    jsonHasMaxFields (processImage engineSmall rmAlways ⟨"r/a.jpg", "a"⟩).data = true := by
  refine ⟨rfl, by decide, by decide, rfl, rfl⟩

/-- Claim C1, amended: for every processed item the record's
`MaxWidth`/`MaxHeight` equal the decoded source dimensions — populated
regardless of whether tiling occurs — while the `Tiles` field is indeed
empty (hence absent from the JSON) whenever both dimensions are at or under
the tiling threshold. -/
theorem c1_max_dims_always (E : Engine) (rmOk : String → Bool) (it : Item) :
    (processImage E rmOk it).data.maxWidth = (E.decode it.path).1 ∧
    (processImage E rmOk it).data.maxHeight = (E.decode it.path).2 ∧
    ((E.decode it.path).1 ≤ tileMinDimension → (E.decode it.path).2 ≤ tileMinDimension →
      (processImage E rmOk it).data.tiles = "") := by
  unfold processImage generateSlideImage generateImageTiles
  dsimp only []
  refine ⟨?_, ?_, ?_⟩
  · split <;> split <;> rfl
  · split <;> split <;> rfl
  · intro h1 h2
    rw [if_neg]
    · split <;> rfl
    · simp only [Bool.or_eq_true, decide_eq_true_eq, not_or, not_lt]
      exact ⟨h1, h2⟩

/-- Witness for `c1_max_dims_always` at a concrete 300 x 200 image. -/
theorem c1_max_dims_always_witness :
    (processImage engineSmall rmAlways ⟨"r/a.jpg", "a"⟩).data.tiles = "" ∧
    (processImage engineSmall rmAlways ⟨"r/a.jpg", "a"⟩).data.maxWidth = 300 := by
  have h := c1_max_dims_always engineSmall rmAlways ⟨"r/a.jpg", "a"⟩
  exact ⟨h.2.2 (by decide) (by decide), h.1⟩

/-- Claim C2: whenever a source dimension exceeds the slide threshold, the
width/height stored in the record (and hence in the manifest, which stores
`.data` verbatim) are the dimensions returned by the slide resampling of the
full image — not the decoded source's dimensions. -/
theorem c2_slide_dims_recorded (E : Engine) (rmOk : String → Bool) (it : Item)
    (h : (E.decode it.path).1 > slideHeight ∨ (E.decode it.path).2 > slideHeight) :
    (processImage E rmOk it).data.width =
      (E.thumbFromFile (joinP (dirOf it.path) (it.name ++ ".jpg")) maxInt16 slideHeight
        Interest.noCrop).1 ∧
    (processImage E rmOk it).data.height =
      (E.thumbFromFile (joinP (dirOf it.path) (it.name ++ ".jpg")) maxInt16 slideHeight
        Interest.noCrop).2 := by
  unfold processImage generateSlideImage generateImageTiles
  dsimp only []
  have hc : (decide ((E.decode it.path).1 > slideHeight) ||
      decide ((E.decode it.path).2 > slideHeight)) = true := by
    simp only [Bool.or_eq_true, decide_eq_true_eq]
    exact h
  constructor <;> ((repeat' split) <;> simp_all)

/-- Witness for `c2_slide_dims_recorded`: a 5000 x 3000 source is resampled
to 3333 x 2000, and exactly those dimensions are recorded. -/
theorem c2_slide_dims_recorded_witness :
    (processImage engineLarge rmAlways ⟨"r/a.jpg", "a"⟩).data.width = 3333 ∧
    (processImage engineLarge rmAlways ⟨"r/a.jpg", "a"⟩).data.height = 2000 ∧
    (engineLarge.decode "r/a.jpg").1 = 5000 := by
  have h := c2_slide_dims_recorded engineLarge rmAlways ⟨"r/a.jpg", "a"⟩ (Or.inl (by decide))
  exact ⟨h.1, h.2, rfl⟩

/-- Claim C4: a thumbnail is written for every processed item, at the
thumbnail path, resampled to the fixed 400-pixel height, width unconstrained
up to `math.MaxInt16`, with no cropping (`vips.InterestingNone`) — with no
condition whatsoever on the source. -/
theorem c4_thumbnail_unconditional (E : Engine) (rmOk : String → Bool) (it : Item) :
    Asset.thumbA (joinP (dirOf it.path) (it.name ++ "-thumbnail" ++ ".jpg"))
      (E.thumbFromFile (joinP (dirOf it.path) (it.name ++ ".jpg")) maxInt16 thumbnailHeight
        Interest.noCrop)
      maxInt16 thumbnailHeight Interest.noCrop ∈ (processImage E rmOk it).assets := by
  unfold processImage generateThumbnail generateImageTiles
  dsimp only []
  repeat' split
  all_goals simp

/-- Claim C5: a slide image is generated iff either decoded dimension
strictly exceeds 2000, and a tile pyramid is generated iff either decoded
dimension strictly exceeds 4100. -/
theorem c5_thresholds (E : Engine) (rmOk : String → Bool) (it : Item) :
    slideMade (processImage E rmOk it) =
      (decide ((E.decode it.path).1 > slideHeight) ||
       decide ((E.decode it.path).2 > slideHeight)) ∧
    tilesMade (processImage E rmOk it) =
      (decide ((E.decode it.path).1 > tileMinDimension) ||
       decide ((E.decode it.path).2 > tileMinDimension)) := by
  unfold processImage slideMade tilesMade generateThumbnail generateSlideImage generateImageTiles
  dsimp only []
  constructor <;> ((repeat' split) <;> simp_all)

/-- Claim C7: failure of the `.dzi` sidecar deletion after tiling is
non-fatal — the record and the written assets are identical whether or not
`os.Remove` succeeds, the failure is merely logged, and the whole run
(including every directory manifest) is unchanged. -/
theorem c7_sidecar_failure_nonfatal (E : Engine) (rmOk rmOk2 : String → Bool)
    (it : Item) (t : FS)
    (htile : (E.decode it.path).1 > tileMinDimension ∨
      (E.decode it.path).2 > tileMinDimension) :
    (processImage E rmOk it).data = (processImage E rmOk2 it).data ∧
    (processImage E rmOk it).assets = (processImage E rmOk2 it).assets ∧
    (rmOk (joinP (dirOf it.path) it.name ++ ".dzi") = false →
      ("remove failed: " ++ joinP (dirOf it.path) it.name ++ ".dzi") ∈
        (processImage E rmOk it).logs) ∧
    run E rmOk t = run E rmOk2 t := by
  refine ⟨(processImage_data_eq E rmOk rmOk2 it).1,
    (processImage_data_eq E rmOk rmOk2 it).2, ?_, run_rmOk E rmOk rmOk2 t⟩
  intro hrm
  unfold processImage generateImageTiles
  dsimp only []
  have hc : (decide ((E.decode it.path).1 > tileMinDimension) ||
      decide ((E.decode it.path).2 > tileMinDimension)) = true := by
    simp only [Bool.or_eq_true, decide_eq_true_eq]
    exact htile
  rw [if_pos hc, hrm]
  simp

/-- Witness for `c7_sidecar_failure_nonfatal` on a concrete 5000 x 3000
image whose sidecar deletion always fails. -/
theorem c7_sidecar_failure_nonfatal_witness :
    (processImage engineLarge rmNever ⟨"r/a.jpg", "a"⟩).data =
      (processImage engineLarge rmAlways ⟨"r/a.jpg", "a"⟩).data ∧
    ("remove failed: " ++ "r/a" ++ ".dzi") ∈
      (processImage engineLarge rmNever ⟨"r/a.jpg", "a"⟩).logs ∧
    run engineLarge rmNever (.dir "r" [.file "a.jpg"]) =
      run engineLarge rmAlways (.dir "r" [.file "a.jpg"]) := by
  have h := c7_sidecar_failure_nonfatal engineLarge rmNever rmAlways ⟨"r/a.jpg", "a"⟩
    (.dir "r" [.file "a.jpg"]) (Or.inl (by decide))
  exact ⟨h.1, h.2.2.1 rfl, h.2.2.2⟩

/-! ### Claims C3, C8, C9: the classifier and walker -/

/-- Claim C3, counterexample: the directory named `"html"` matches an ignore
substring, yet the walker still recurses into it and emits a work item for
the file inside — refuting "if it is a directory the walker does not recurse
into it". -/
theorem c3_skip_recursion_counterexample :
    ignoredName "html" = true ∧
    walkFS "" (.dir "html" [.file "a.jpg"]) = ([], [⟨"html/a.jpg", "a"⟩]) :=
  ⟨rfl, rfl⟩

/-- Claim C3, amended: an entry whose name contains an ignore substring
produces no work item of its own and no manifest bucket, and this branch
takes precedence over every other rule (including the `_files` prune) — but
for a directory the callback returns `nil`, so `WalkDir` still descends into
its children. -/
theorem c3_skip_semantics (pp n : String) (cs : List FS) (h : ignoredName n = true) :
    walkFS pp (.file n) = ([], []) ∧
    walkFS pp (.dir n cs) = walkList (joinP pp n) cs := by
  constructor <;> simp [walkFS, h]

/-- Witness for `c3_skip_semantics` at the directory `"html"`. -/
theorem c3_skip_semantics_witness :
    walkFS "" (.dir "html" [.file "a.jpg"]) = walkList "html" [.file "a.jpg"] ∧
    ignoredName "html" = true := by
  have h := c3_skip_semantics "" "html" [.file "a.jpg"] rfl
  exact ⟨h.2, rfl⟩

/-- Claim C8: a directory whose name ends in `"_files"` (and is not caught by
the ignore-substring rule first) contributes no bucket and no items at all:
`WalkDir` gets `SkipDir` and never descends, so no `images.json` is written
anywhere inside it (manifests are written only at bucket paths). -/
theorem c8_files_dir_pruned (pp n : String) (cs : List FS)
    (h1 : ignoredName n = false) (h2 : endsWithL n "_files" = true) :
    walkFS pp (.dir n cs) = ([], []) := by
  simp [walkFS, h1, h2]

/-- Witness for `c8_files_dir_pruned` at a concrete tile-pyramid directory
with children. -/
theorem c8_files_dir_pruned_witness :
    walkFS "r" (.dir "a_files" [.file "b.jpg", .dir "sub" [.file "c.jpg"]]) = ([], []) := by
  exact c8_files_dir_pruned "r" "a_files" [.file "b.jpg", .dir "sub" [.file "c.jpg"]] rfl rfl

/-- Claim C9: for the tree `r/html/a.jpg`, the walker creates a bucket only
for `r` but still emits a work item for `r/html/a.jpg` (the ignore-matched
directory `html` gets no bucket yet is recursed into); storing the result
then assigns into a nil map and the run panics (`none`) instead of
completing — for every engine and removal oracle. -/
theorem c9_nil_map_panic : ∀ (E : Engine) (rmOk : String → Bool),
    (buildImageList (.dir "r" [.dir "html" [.file "a.jpg"]])).1 = ["r"] ∧
    (buildImageList (.dir "r" [.dir "html" [.file "a.jpg"]])).2 = [⟨"r/html/a.jpg", "a"⟩] ∧
    run E rmOk (.dir "r" [.dir "html" [.file "a.jpg"]]) = none := by
  intro E rmOk
  exact ⟨rfl, rfl, rfl⟩

/-! ### Claim C10: deterministic overwrite order for colliding base names -/


theorem toListRev_append (a b : String) :
    (a ++ b).toList.reverse = b.toList.reverse ++ a.toList.reverse := by
  simp [String.toList, String.data_append]

theorem dropWhile_append_all {l1 l2 : List Char} {p : Char → Bool}
    (h : ∀ c ∈ l1, p c = true) : (l1 ++ l2).dropWhile p = l2.dropWhile p := by
  rw [List.dropWhile_append, List.dropWhile_eq_nil_iff.mpr h]
  simp

/-- Paths built by the walker decompose: the directory of `p ++ "/" ++ n` is
`p` whenever `n` is a nonempty single path element. -/
theorem dirOf_joinP (p n : String) (hp : p ≠ "")
    (hns : noSlashS n = true) : dirOf (joinP p n) = p := by
  unfold joinP dirOf
  rw [if_neg hp]
  dsimp only []
  have hrev : (p ++ "/" ++ n).toList.reverse =
      n.toList.reverse ++ ('/' :: p.toList.reverse) := by
    rw [toListRev_append, toListRev_append]
    simp [String.toList]
  rw [hrev]
  have hall : ∀ c ∈ n.toList.reverse, (c != '/') = true := by
    intro c hc
    rw [List.mem_reverse] at hc
    exact List.all_eq_true.mp hns c hc
  have hdrop : (n.toList.reverse ++ ('/' :: p.toList.reverse)).dropWhile (fun c => c != '/') =
      '/' :: p.toList.reverse := by
    rw [dropWhile_append_all hall]
    simp [List.dropWhile]
  rw [if_pos]
  · rw [hdrop]
    simp [String.toList]
  · rw [List.any_eq_true]
    exact ⟨'/', by simp [hrev]⟩

/-- Base names of the walker's converted-JPEG artifact names. -/
theorem baseName_append_jpg (b : String) : baseName (b ++ ".jpg") = b := by
  unfold baseName splitExtRev
  rw [toListRev_append]
  have h4 : (".jpg" : String).toList.reverse = ['g', 'p', 'j', '.'] := by decide
  rw [h4]
  simp [List.takeWhile, String.toList]



/-- Lexicographic order on strings by character, modelling the order in
which Go's `os.ReadDir` (and hence `filepath.WalkDir`) enumerates entries. -/
def listLt : List Char → List Char → Bool
  | [], [] => false
  | [], _ :: _ => true
  | _ :: _, [] => false
  | a :: as, c :: cs => if a = c then listLt as cs else decide (a < c)

def strLtL (a b : String) : Bool := listLt a.toList b.toList

/-- The item produced by the walker for a file child, if any. -/
def fileItem (p : String) : FS → Option Item
  | .file m => if ignoredName m then none else some ⟨joinP p m, baseName m⟩
  | .dir _ _ => none

theorem walkList_files (p : String) (cs : List FS)
    (h : ∀ e ∈ cs, ∃ m, e = FS.file m) :
    walkList p cs = ([], cs.filterMap (fileItem p)) := by
  induction cs with
  | nil => rfl
  | cons e es ih =>
    obtain ⟨m, rfl⟩ := h e (by simp)
    have ihe := ih (fun x hx => h x (by simp [hx]))
    unfold walkList walkFS
    rw [ihe]
    unfold fileItem
    split <;> simp_all [fileItem]

/-- The stored result stream for a list of items, when every store
succeeds. -/
def resOf (E : Engine) (rmOk : String → Bool) (l : List Item) :
    List (String × String × ImageData) :=
  l.map fun i => (dirOf i.path, i.name, (processImage E rmOk i).data)

theorem runItems_all (E : Engine) (rmOk : String → Bool) (bs : List String)
    (l : List Item) (h : ∀ i ∈ l, bs.contains (dirOf i.path) = true) :
    runItems E rmOk bs l = some (resOf E rmOk l) := by
  induction l with
  | nil => rfl
  | cons it rest ih =>
    unfold runItems
    dsimp only []
    rw [if_pos (h it (by simp)), ih (fun i hi => h i (by simp [hi]))]
    rfl

theorem mLookup_cons (e : String × String × ImageData)
    (t : List (String × String × ImageData)) (d b : String) :
    mLookup (e :: t) d b =
      match mLookup t d b with
      | some v => some v
      | none => if (e.1 == d && e.2.1 == b) = true then some e.2.2 else none := rfl

theorem mLookup_append (l1 l2 : List (String × String × ImageData)) (d b : String) :
    mLookup (l1 ++ l2) d b =
      match mLookup l2 d b with
      | some v => some v
      | none => mLookup l1 d b := by
  induction l1 with
  | nil => cases hm : mLookup l2 d b <;> simp [mLookup, hm]
  | cons e t ih =>
    rw [List.cons_append, mLookup_cons, ih, mLookup_cons]
    cases hm : mLookup l2 d b <;> cases hm2 : mLookup t d b <;> simp [hm, hm2]

theorem mLookup_eq_none (l : List (String × String × ImageData)) (d b : String)
    (h : ∀ e ∈ l, ¬(e.1 = d ∧ e.2.1 = b)) : mLookup l d b = none := by
  induction l with
  | nil => rfl
  | cons e t ih =>
    rw [mLookup_cons, ih (fun x hx => h x (by simp [hx]))]
    rw [if_neg]
    intro hcon
    simp only [Bool.and_eq_true, beq_iff_eq] at hcon
    exact h e (by simp) hcon



/-- In a sorted file-only directory, the manifest lookup for the base name of
`f2` returns the record of `f2` whenever `f2` is lexically maximal among the
non-ignored files sharing that base name. -/
theorem mLookup_res_sorted (E : Engine) (rmOk : String → Bool) (p f2 : String)
    (cs : List FS) (hp : p ≠ "")
    (hfiles : ∀ e ∈ cs, ∃ m, e = FS.file m ∧ m ≠ "" ∧ noSlashS m = true)
    (hsorted : List.Pairwise (fun a c => strLtL a.nameOf c.nameOf = true) cs)
    (hf2 : FS.file f2 ∈ cs) (hf2ig : ignoredName f2 = false)
    (hmax : ∀ m, FS.file m ∈ cs → ignoredName m = false →
      baseName m = baseName f2 → strLtL f2 m = false) :
    mLookup (resOf E rmOk (cs.filterMap (fileItem p))) p (baseName f2) =
      some (processImage E rmOk ⟨joinP p f2, baseName f2⟩).data := by
  induction cs with
  | nil => simp at hf2
  | cons e es ih =>
    obtain ⟨m, rfl, hm0, hmns⟩ := hfiles e (by simp)
    have hrel : ∀ x ∈ es, strLtL m x.nameOf = true := by
      intro x hx
      exact (List.pairwise_cons.mp hsorted).1 x hx
    have hs' := (List.pairwise_cons.mp hsorted).2
    by_cases hc : FS.file f2 ∈ es
    · have htail := ih (fun x hx => hfiles x (by simp [hx])) hs' hc
        (fun x hx h1 h2 => hmax x (by simp [hx]) h1 h2)
      rw [List.filterMap_cons]
      cases hfi : fileItem p (FS.file m) with
      | none => rw [htail]
      | some i =>
        unfold resOf
        rw [List.map_cons, mLookup_cons]
        unfold resOf at htail
        rw [htail]
    · have hm2 : m = f2 := by
        rcases List.mem_cons.mp hf2 with h | h
        · exact (FS.file.injEq _ _ ▸ h.symm)
        · exact absurd h hc
      subst hm2
      have htail : mLookup (resOf E rmOk (es.filterMap (fileItem p))) p (baseName m) = none := by
        apply mLookup_eq_none
        intro x hx
        unfold resOf at hx
        rw [List.mem_map] at hx
        obtain ⟨i, hi, rfl⟩ := hx
        rw [List.mem_filterMap] at hi
        obtain ⟨y, hy, hfy⟩ := hi
        obtain ⟨my, rfl, hmy0, hmyns⟩ := hfiles y (by simp [hy])
        simp only [fileItem] at hfy
        by_cases hig : ignoredName my = true
        · rw [if_pos hig] at hfy
          exact absurd hfy (by simp)
        · rw [if_neg hig] at hfy
          cases hfy
          dsimp only []
          intro hcon
          have hbase : baseName my = baseName m := hcon.2
          have h1 := hmax my (by simp [hy]) (by simpa using hig) hbase
          have h2 := hrel (FS.file my) hy
          rw [FS.nameOf] at h2
          rw [h1] at h2
          exact Bool.false_ne_true h2
      rw [List.filterMap_cons]
      simp only [fileItem]
      rw [if_neg (by simp [hf2ig])]
      unfold resOf
      rw [List.map_cons, mLookup_cons]
      unfold resOf at htail
      rw [htail]
      dsimp only []
      rw [dirOf_joinP p m hp hmns]
      rw [if_pos (by simp)]



/-- Claim C10: when several files of one directory share an extension-stripped
base name, the final manifest entry is deterministic: the walker visits the
(lexically sorted) children sequentially, every result overwrites the map
entry for its base name, and so the record coming from the lexically last
matching filename is the one stored.  There is no worker race: part_000
processes the channel sequentially in emission order. -/
theorem c10_lexically_last_wins (E : Engine) (rmOk : String → Bool)
    (rn : String) (cs : List FS) (b f2 : String)
    (hrn : rn ≠ "") (hrnig : ignoredName rn = false)
    (hrnf : endsWithL rn "_files" = false)
    (hcap : (cs.filterMap (fileItem rn)).length ≤ chanCapacity)
    (hfiles : ∀ e ∈ cs, ∃ m, e = FS.file m ∧ m ≠ "" ∧ noSlashS m = true)
    (hsorted : List.Pairwise (fun a c => strLtL a.nameOf c.nameOf = true) cs)
    (hf2 : FS.file f2 ∈ cs) (hf2ig : ignoredName f2 = false) (hf2b : baseName f2 = b)
    (hmax : ∀ m, FS.file m ∈ cs → ignoredName m = false → baseName m = b →
      strLtL f2 m = false) :
    run E rmOk (.dir rn cs) = some ([rn], resOf E rmOk (cs.filterMap (fileItem rn))) ∧
    mLookup (resOf E rmOk (cs.filterMap (fileItem rn))) rn b =
      some (processImage E rmOk ⟨joinP rn f2, b⟩).data := by
  subst hf2b
  have hwalk : buildImageList (.dir rn cs) = ([rn], cs.filterMap (fileItem rn)) := by
    unfold buildImageList
    have hlist := walkList_files (joinP "" rn) cs
      (fun e he => (hfiles e he).elim (fun m hm => ⟨m, hm.1⟩))
    have hj : joinP "" rn = rn := by simp [joinP]
    rw [hj] at hlist
    simp [walkFS, hrnig, hrnf, hj, hlist]
  have hin : ∀ i ∈ cs.filterMap (fileItem rn),
      List.contains [rn] (dirOf i.path) = true := by
    intro i hi
    rw [List.mem_filterMap] at hi
    obtain ⟨y, hy, hfy⟩ := hi
    obtain ⟨m, rfl, hm0, hmns⟩ := hfiles y hy
    simp only [fileItem] at hfy
    by_cases hig : ignoredName m = true
    · rw [if_pos hig] at hfy
      exact absurd hfy (by simp)
    · rw [if_neg hig] at hfy
      cases hfy
      dsimp only []
      rw [dirOf_joinP rn m hrn hmns]
      simp
  constructor
  · unfold run
    rw [hwalk]
    dsimp only []
    rw [runItems_all E rmOk [rn] (cs.filterMap (fileItem rn)) hin,
      if_neg (Nat.not_lt.mpr hcap)]
  · exact mLookup_res_sorted E rmOk rn f2 cs hrn hfiles hsorted hf2 hf2ig hmax

/-- Witness for `c10_lexically_last_wins`: in a directory holding `a.jpg`
and `a.png`, the manifest entry for `a` is the record of `a.png`. -/
theorem c10_lexically_last_wins_witness :
    run engineSmall rmAlways (.dir "r" [.file "a.jpg", .file "a.png"]) =
      some (["r"], resOf engineSmall rmAlways
        ([FS.file "a.jpg", FS.file "a.png"].filterMap (fileItem "r"))) ∧
    mLookup (resOf engineSmall rmAlways
        ([FS.file "a.jpg", FS.file "a.png"].filterMap (fileItem "r"))) "r" "a" =
      some (processImage engineSmall rmAlways ⟨"r/a.png", "a"⟩).data := by
  have hfiles : ∀ e ∈ [FS.file "a.jpg", FS.file "a.png"],
      ∃ m, e = FS.file m ∧ m ≠ "" ∧ noSlashS m = true := by
    intro e he
    simp only [List.mem_cons, List.not_mem_nil, or_false] at he
    rcases he with rfl | rfl
    · exact ⟨"a.jpg", rfl, by decide, by decide⟩
    · exact ⟨"a.png", rfl, by decide, by decide⟩
  have hsorted : List.Pairwise (fun a c => strLtL a.nameOf c.nameOf = true)
      [FS.file "a.jpg", FS.file "a.png"] := by
    refine List.Pairwise.cons ?_ (List.Pairwise.cons (by simp) List.Pairwise.nil)
    intro x hx
    simp only [List.mem_cons, List.not_mem_nil, or_false] at hx
    subst hx
    decide
  have hmax : ∀ m, FS.file m ∈ [FS.file "a.jpg", FS.file "a.png"] →
      ignoredName m = false → baseName m = "a" → strLtL "a.png" m = false := by
    intro m hm _ _
    simp only [List.mem_cons, List.not_mem_nil, or_false, FS.file.injEq] at hm
    rcases hm with rfl | rfl
    · decide
    · decide
  exact c10_lexically_last_wins engineSmall rmAlways "r"
    [FS.file "a.jpg", FS.file "a.png"] "a" "a.png"
    (by decide) rfl rfl (by decide) hfiles hsorted (by simp) rfl rfl hmax


/-! ### Claim C6: idempotence of a second run over generated artifacts -/


/-! ### String decomposition lemmas for artifact names -/

theorem splitExtRev_append (r : List Char) :
    (splitExtRev r).2 ++ (splitExtRev r).1 = r := by
  unfold splitExtRev
  dsimp only []
  have hpre : List.takeWhile (fun c => !(c == '.' || c == '/')) r <+: r :=
    List.takeWhile_prefix _
  obtain ⟨t, ht⟩ := hpre
  have hd := List.drop_left (r.takeWhile (fun c => !(c == '.' || c == '/'))) t
  rw [ht] at hd
  split
  · next rest heq =>
    have htt : t = '.' :: rest := hd.symm.trans heq
    conv_rhs => rw [← ht, htt]
    simp
  · simp

theorem baseName_append_extOf (s : String) : baseName s ++ extOf s = s := by
  apply String.ext
  rw [String.data_append]
  show (splitExtRev s.toList.reverse).1.reverse ++ (splitExtRev s.toList.reverse).2.reverse
      = s.data
  rw [← List.reverse_append, splitExtRev_append, List.reverse_reverse]
  rfl

theorem ignored_of_sub (n s : String) (hs : s ∈ skipFileNames)
    (hsub : listHasSub s.toList n.toList = true) : ignoredName n = true := by
  unfold ignoredName ignoredL
  rw [List.any_eq_true]
  exact ⟨s, hs, hsub⟩

theorem toList_append (a b : String) : (a ++ b).toList = a.toList ++ b.toList :=
  String.data_append a b

theorem ignored_thumb_name (b : String) :
    ignoredName (b ++ "-thumbnail" ++ ".jpg") = true := by
  apply ignored_of_sub _ "thumbnail" (by simp [skipFileNames])
  rw [toList_append, toList_append]
  have h1 : ("-thumbnail" : String).toList = ['-'] ++ "thumbnail".toList := by decide
  rw [h1, ← List.append_assoc]
  exact listHasSub_middle _ _ _

theorem ignored_display_name (b : String) :
    ignoredName (b ++ "-display" ++ ".jpg") = true := by
  apply ignored_of_sub _ "display" (by simp [skipFileNames])
  rw [toList_append, toList_append]
  have h1 : ("-display" : String).toList = ['-'] ++ "display".toList := by decide
  rw [h1, ← List.append_assoc]
  exact listHasSub_middle _ _ _

theorem ignored_dzi_name (b : String) : ignoredName (b ++ ".dzi") = true := by
  apply ignored_of_sub _ "dzi" (by simp [skipFileNames])
  rw [toList_append]
  have h1 : (".dzi" : String).toList = ['.'] ++ "dzi".toList ++ [] := by decide
  rw [h1, ← List.append_assoc, ← List.append_assoc]
  exact listHasSub_middle _ _ _

theorem endsWith_append (b suf : String) : endsWithL (b ++ suf) suf = true := by
  unfold endsWithL
  rw [toListRev_append]
  exact listHasPre_append _ _ _ (listHasPre_refl _)

/-- Artifact names derived from the base name of a non-ignored source file
are classified exactly as the second run needs: the `_files` tile directory is
not ignored (so it reaches the prune rule) and the converted `.jpg` full copy
is not ignored (so it is processed as a normal image). -/
theorem artifact_base_classification (n : String) (hn : ignoredName n = false) :
    ignoredName (baseName n ++ "_files") = false ∧
    endsWithL (baseName n ++ "_files") "_files" = true ∧
    ignoredName (baseName n ++ ".jpg") = false := by
  have hb : ignoredL (baseName n).toList = false := by
    have hsplit : (baseName n).toList ++ (extOf n).toList = n.toList := by
      rw [← toList_append, baseName_append_extOf]
    apply ignoredL_of_append _ (extOf n).toList
    rw [hsplit]
    exact hn
  refine ⟨?_, endsWith_append _ _, ?_⟩
  · show ignoredL (baseName n ++ "_files").toList = false
    rw [toList_append]
    exact ignoredL_append_false _ _ hb (by decide)
  · show ignoredL (baseName n ++ ".jpg").toList = false
    rw [toList_append]
    exact ignoredL_append_false _ _ hb (by decide)



/-! ### Domination: the second run's item stream versus the first run's -/

/-- The aggregation key of an item: owning directory and base name. -/
def keyOf (i : Item) : String × String := (dirOf i.path, i.name)

/-- The relation `Dom l lp`: `lp` is `l` with extra items inserted, each of
which is dominated by (shares its aggregation key with) some original item
occurring later in the stream — so the extra stores are always overwritten. -/
inductive Dom : List Item → List Item → Prop
  | nil : Dom [] []
  | keep (i : Item) (l lp : List Item) : Dom l lp → Dom (i :: l) (i :: lp)
  | ins (i : Item) (l lp : List Item) : (∃ j ∈ l, keyOf j = keyOf i) →
      Dom l lp → Dom l (i :: lp)

theorem Dom_refl (l : List Item) : Dom l l := by
  induction l with
  | nil => exact Dom.nil
  | cons i t ih => exact Dom.keep i t t ih

theorem Dom_append {a ap b bp : List Item} (ha : Dom a ap) (hb : Dom b bp) :
    Dom (a ++ b) (ap ++ bp) := by
  induction ha with
  | nil => simpa using hb
  | keep i l lp hrec ih => exact Dom.keep i _ _ ih
  | ins i l lp hj hrec ih =>
    refine Dom.ins i _ _ ?_ ih
    obtain ⟨j, hjl, hk⟩ := hj
    exact ⟨j, List.mem_append_left _ hjl, hk⟩

theorem mLookup_resOf_isSome (E : Engine) (rmOk : String → Bool)
    (l : List Item) (j : Item) (hj : j ∈ l) (d b : String)
    (hk : keyOf j = (d, b)) : ∃ v, mLookup (resOf E rmOk l) d b = some v := by
  induction l with
  | nil => simp at hj
  | cons e t ih =>
    unfold resOf
    rw [List.map_cons, mLookup_cons]
    rcases List.mem_cons.mp hj with rfl | hmem
    · cases hm : mLookup (resOf E rmOk t) d b with
      | some v => exact ⟨v, by unfold resOf at hm; rw [hm]⟩
      | none =>
        refine ⟨(processImage E rmOk j).data, ?_⟩
        unfold resOf at hm
        rw [hm]
        have h1 : dirOf j.path = d := congrArg Prod.fst hk
        have h2 : j.name = b := congrArg Prod.snd hk
        dsimp only []
        rw [if_pos (by rw [h1, h2]; simp)]
    · obtain ⟨v, hv⟩ := ih hmem
      unfold resOf at hv
      rw [hv]
      exact ⟨v, rfl⟩

theorem mLookup_dom (E : Engine) (rmOk : String → Bool) {l lp : List Item}
    (hd : Dom l lp) (d b : String) :
    mLookup (resOf E rmOk lp) d b = mLookup (resOf E rmOk l) d b := by
  induction hd with
  | nil => rfl
  | keep i l0 lp0 hrec ih =>
    unfold resOf
    rw [List.map_cons, List.map_cons, mLookup_cons, mLookup_cons]
    unfold resOf at ih
    rw [ih]
  | ins i l0 lp0 hj hrec ih =>
    unfold resOf
    rw [List.map_cons, mLookup_cons]
    unfold resOf at ih
    rw [ih]
    cases hm : mLookup (List.map
        (fun i => (dirOf i.path, i.name, (processImage E rmOk i).data)) l0) d b with
    | some v => rfl
    | none =>
      dsimp only []
      by_cases hk : keyOf i = (d, b)
      · obtain ⟨j, hjl, hkj⟩ := hj
        obtain ⟨v, hv⟩ := mLookup_resOf_isSome E rmOk l0 j hjl d b (hkj.trans hk)
        unfold resOf at hv
        rw [hv] at hm
        exact absurd hm (by simp)
      · rw [if_neg]
        intro hcon
        rw [Bool.and_eq_true, beq_iff_eq, beq_iff_eq] at hcon
        exact hk (by unfold keyOf; rw [hcon.1, hcon.2])

theorem Dom_bucketOK {l lp : List Item} (hd : Dom l lp) (bs : List String)
    (h : ∀ i ∈ l, bs.contains (dirOf i.path) = true) :
    ∀ i ∈ lp, bs.contains (dirOf i.path) = true := by
  induction hd with
  | nil => exact h
  | keep i l0 lp0 hrec ih =>
    intro x hx
    rcases List.mem_cons.mp hx with rfl | hmem
    · exact h x (by simp)
    · exact ih (fun y hy => h y (by simp [hy])) x hmem
  | ins i l0 lp0 hj hrec ih =>
    intro x hx
    rcases List.mem_cons.mp hx with rfl | hmem
    · obtain ⟨j, hjl, hk⟩ := hj
      have : dirOf j.path = dirOf x.path := congrArg Prod.fst hk
      rw [← this]
      exact h j hjl
    · exact ih h x hmem

theorem runItems_some (E : Engine) (rmOk : String → Bool) (bs : List String)
    (l : List Item) (rs : List (String × String × ImageData))
    (h : runItems E rmOk bs l = some rs) :
    rs = resOf E rmOk l ∧ ∀ i ∈ l, bs.contains (dirOf i.path) = true := by
  induction l generalizing rs with
  | nil =>
    refine ⟨?_, by simp⟩
    unfold runItems at h
    injection h with h2
    exact h2.symm
  | cons it rest ih =>
    unfold runItems at h
    dsimp only [] at h
    by_cases hc : bs.contains (dirOf it.path) = true
    · rw [if_pos hc] at h
      cases hrest : runItems E rmOk bs rest with
      | none => rw [hrest] at h; exact absurd h (by simp)
      | some l0 =>
        rw [hrest] at h
        obtain ⟨hl0, hall⟩ := ih l0 hrest
        injection h with h2
        subst h2
        refine ⟨?_, ?_⟩
        · unfold resOf
          unfold resOf at hl0
          rw [List.map_cons, ← hl0]
        · intro i hi
          rcases List.mem_cons.mp hi with rfl | hmem
          · exact hc
          · exact hall i hmem
    · rw [if_neg hc] at h
      exact absurd h (by simp)



theorem walkList_cons (p : String) (e : FS) (es : List FS) :
    walkList p (e :: es) =
      ((walkFS p e).1 ++ (walkList p es).1, (walkFS p e).2 ++ (walkList p es).2) := rfl

theorem walkFS_file (pp n : String) :
    walkFS pp (.file n) =
      if ignoredName n then ([], []) else ([], [⟨joinP pp n, baseName n⟩]) := rfl

theorem walkFS_dir (pp n : String) (cs : List FS) :
    walkFS pp (.dir n cs) =
      if ignoredName n then walkList (joinP pp n) cs
      else if endsWithL n "_files" then ([], [])
      else (joinP pp n :: (walkList (joinP pp n) cs).1, (walkList (joinP pp n) cs).2) := rfl

theorem item_mem_walkList (p : String) (r : List FS) (m : String)
    (hm : FS.file m ∈ r) (hig : ignoredName m = false) :
    (⟨joinP p m, baseName m⟩ : Item) ∈ (walkList p r).2 := by
  induction r with
  | nil => simp at hm
  | cons e es ih =>
    rw [walkList_cons]
    rcases List.mem_cons.mp hm with rfl | hmem
    · rw [walkFS_file, if_neg (by simp [hig])]
      simp
    · exact List.mem_append_right _ (ih hmem)

/-- True iff the string contains no path separator, applied to both names in
the converted-file insertion. -/
theorem noSlash_append_jpg (b : String) (hb : noSlashS b = true) :
    noSlashS (b ++ ".jpg") = true := by
  unfold noSlashS at hb ⊢
  rw [toList_append, List.all_append, hb]
  decide

/-- Go `filepath.Dir` of a bare name (no separator) is `"."`. -/
theorem dirOf_noSlash (n : String) (hn : noSlashS n = true) : dirOf n = "." := by
  unfold dirOf
  dsimp only []
  rw [if_neg]
  rw [List.any_eq_true]
  rintro ⟨c, hc, hc2⟩
  rw [List.mem_reverse] at hc
  have := List.all_eq_true.mp hn c hc
  rw [beq_iff_eq] at hc2
  subst hc2
  simp at this

theorem dirOf_joinP_congr (p a c : String) (ha : noSlashS a = true)
    (hc : noSlashS c = true) : dirOf (joinP p a) = dirOf (joinP p c) := by
  by_cases hp : p = ""
  · subst hp
    unfold joinP
    rw [if_pos rfl, if_pos rfl, dirOf_noSlash a ha, dirOf_noSlash c hc]
  · rw [dirOf_joinP p a hp ha, dirOf_joinP p c hp hc]

/-- The augmentation relation between a directory's children on the first run
and on the second run: every original entry is kept (with directories
augmented recursively), and the inserted entries are exactly the pipeline's
own outputs — ignore-matched files (thumbnails, display images, `images.json`
manifests, `.dzi` leftovers), non-ignored `_files` tile directories, and
converted full-size JPEGs whose source (same base name, later in the lexical
enumeration) is still present. -/
inductive AugL : List FS → List FS → Prop
  | nil : AugL [] []
  | keepFile (n : String) (r rp : List FS) : AugL r rp →
      AugL (.file n :: r) (.file n :: rp)
  | keepDir (n : String) (c cp r rp : List FS) : AugL c cp → AugL r rp →
      AugL (.dir n c :: r) (.dir n cp :: rp)
  | insFile (n : String) (r rp : List FS) : ignoredName n = true → AugL r rp →
      AugL r (.file n :: rp)
  | insTiles (n : String) (cs r rp : List FS) : ignoredName n = false →
      endsWithL n "_files" = true → AugL r rp → AugL r (.dir n cs :: rp)
  | insConv (b : String) (r rp : List FS) :
      ignoredName (b ++ ".jpg") = false → noSlashS b = true →
      (∃ g, FS.file g ∈ r ∧ ignoredName g = false ∧ noSlashS g = true ∧
        baseName g = b) →
      AugL r rp → AugL r (.file (b ++ ".jpg") :: rp)

theorem walkList_aug {r rp : List FS} (ha : AugL r rp) :
    ∀ p, (walkList p rp).1 = (walkList p r).1 ∧
      Dom (walkList p r).2 (walkList p rp).2 := by
  induction ha with
  | nil => exact fun p => ⟨rfl, Dom.nil⟩
  | keepFile n r0 rp0 hrec ih =>
    intro p
    rw [walkList_cons, walkList_cons]
    exact ⟨by rw [(ih p).1], Dom_append (Dom_refl _) (ih p).2⟩
  | keepDir n c cp r0 rp0 hcrec hrrec ihc ihr =>
    intro p
    rw [walkList_cons, walkList_cons, walkFS_dir, walkFS_dir]
    by_cases hig : ignoredName n = true
    · rw [if_pos hig, if_pos hig]
      exact ⟨by rw [(ihc (joinP p n)).1, (ihr p).1],
        Dom_append (ihc (joinP p n)).2 (ihr p).2⟩
    · rw [if_neg hig, if_neg hig]
      by_cases hnf : endsWithL n "_files" = true
      · rw [if_pos hnf, if_pos hnf]
        simpa using ihr p
      · rw [if_neg hnf, if_neg hnf]
        refine ⟨?_, Dom_append (ihc (joinP p n)).2 (ihr p).2⟩
        dsimp only []
        rw [(ihc (joinP p n)).1, (ihr p).1]
  | insFile n r0 rp0 hig hrec ih =>
    intro p
    rw [walkList_cons, walkFS_file, if_pos hig]
    simpa using ih p
  | insTiles n cs r0 rp0 hig hnf hrec ih =>
    intro p
    rw [walkList_cons, walkFS_dir, if_neg (by simp [hig]), if_pos hnf]
    simpa using ih p
  | insConv b r0 rp0 hig hbs hg hrec ih =>
    intro p
    rw [walkList_cons, walkFS_file, if_neg (by simp [hig])]
    refine ⟨by simpa using (ih p).1, ?_⟩
    simp only [List.nil_append, List.singleton_append]
    obtain ⟨g, hgmem, hgig, hgns, hgb⟩ := hg
    refine Dom.ins _ _ _ ⟨⟨joinP p g, baseName g⟩,
      item_mem_walkList p r0 g hgmem hgig, ?_⟩ (ih p).2
    unfold keyOf
    dsimp only []
    rw [baseName_append_jpg, hgb]
    rw [dirOf_joinP_congr p g (b ++ ".jpg") hgns (noSlash_append_jpg b hbs)]



theorem noSlash_append (a b : String) (ha : noSlashS a = true)
    (hb : noSlashS b = true) : noSlashS (a ++ b) = true := by
  unfold noSlashS at ha hb ⊢
  rw [toList_append, List.all_append, ha, hb]
  rfl

/-- Fifty-one base names: enough sources that the converted JPEG copies push
a second run past the channel capacity. -/
def convNames : List String :=
  ["p00", "p01", "p02", "p03", "p04", "p05", "p06", "p07", "p08", "p09", "p10", "p11", "p12", "p13", "p14", "p15", "p16", "p17", "p18", "p19", "p20", "p21", "p22", "p23", "p24", "p25", "p26", "p27", "p28", "p29", "p30", "p31", "p32", "p33", "p34", "p35", "p36", "p37", "p38", "p39", "p40", "p41", "p42", "p43", "p44", "p45", "p46", "p47", "p48", "p49", "p50"]

/-- A root directory holding 51 PNG sources. -/
def pngChildren : List FS := convNames.map fun nm => FS.file (nm ++ ".png")

/-- The same directory after one run under root `"."`: each converted
full-size JPEG sits (lexically) right before its source. -/
def convChildren : List FS :=
  convNames.foldr
    (fun nm acc => FS.file (nm ++ ".jpg") :: FS.file (nm ++ ".png") :: acc) []

theorem augL_conv (names : List String)
    (h : ∀ nm ∈ names, ignoredName (nm ++ ".jpg") = false ∧ noSlashS nm = true ∧
      ignoredName (nm ++ ".png") = false ∧ baseName (nm ++ ".png") = nm) :
    AugL (names.map fun nm => FS.file (nm ++ ".png"))
      (names.foldr
        (fun nm acc => FS.file (nm ++ ".jpg") :: FS.file (nm ++ ".png") :: acc) []) := by
  induction names with
  | nil => exact AugL.nil
  | cons nm rest ih =>
    rw [List.map_cons, List.foldr_cons]
    have hh := h nm (by simp)
    refine AugL.insConv nm _ _ hh.1 hh.2.1
      ⟨nm ++ ".png", by simp, hh.2.2.1,
        noSlash_append nm ".png" hh.2.1 (by decide), hh.2.2.2⟩ ?_
    exact AugL.keepFile _ _ _ (ih fun x hx => h x (by simp [hx]))

/-- Claim C6, counterexample to the original claim: a first run under root
`"."` over 51 top-level PNG sources completes (51 items fit the capacity-100
channel) and writes a converted `.jpg` beside each source; the second run
then emits 102 work items (the run's other outputs — thumbnails and
`images.json`, omitted from this tree — are skip-classified and add no
items), so the synchronous `buildImageList` blocks on the 101st channel send
with no consumer running and the Go runtime aborts — the second run crashes
and produces no manifest at all, refuting "does not crash ... and produces
the same manifest content". -/
theorem c6_channel_deadlock_counterexample :
    AugL pngChildren convChildren ∧
    (run engineSmall rmAlways (FS.dir "." pngChildren)).isSome = true ∧
    (walkFS "" (FS.dir "." convChildren)).2.length = 102 ∧
    run engineSmall rmAlways (FS.dir "." convChildren) = none := by
  refine ⟨augL_conv convNames (by decide), by decide, by decide, by decide⟩

/-- Claim C6, amended: a second run over the same tree augmented with the
first run's outputs — thumbnails, display images, `images.json` manifests,
`.dzi` leftovers (all skip-classified), `_files` tile directories (pruned),
and converted full-size JPEGs (dominated by their still-present source) —
does not panic, creates exactly the same manifest buckets, and yields
manifests with the same content for every directory and base name,
*provided* the augmented walk emits at most `chanCapacity` work items.  Past
that bound the synchronous producer deadlocks on the capacity-100 channel
and the second run crashes before any processing, which is why the
hypothesis `hcap2` cannot be dropped.  The trailing conjuncts verify that the
pipeline's actual artifact names satisfy the insertion conditions of `AugL`
for every base name. -/
theorem c6_second_run_no_reprocess (E : Engine) (rmOk : String → Bool)
    (rn : String) (cs cp : List FS) (bs : List String)
    (rs : List (String × String × ImageData))
    (haug : AugL cs cp)
    (hcap2 : (walkFS "" (FS.dir rn cp)).2.length ≤ chanCapacity)
    (hrun : run E rmOk (.dir rn cs) = some (bs, rs)) :
    (∃ rsp, run E rmOk (.dir rn cp) = some (bs, rsp) ∧
      ∀ d b, mLookup rsp d b = mLookup rs d b) ∧
    (∀ b, ignoredName (b ++ "-thumbnail" ++ ".jpg") = true) ∧
    (∀ b, ignoredName (b ++ "-display" ++ ".jpg") = true) ∧
    ignoredName "images.json" = true ∧
    (∀ b, ignoredName (b ++ ".dzi") = true) ∧
    (∀ n, ignoredName n = false →
      ignoredName (baseName n ++ "_files") = false ∧
      endsWithL (baseName n ++ "_files") "_files" = true ∧
      ignoredName (baseName n ++ ".jpg") = false) := by
  refine ⟨?_, ignored_thumb_name, ignored_display_name, rfl, ignored_dzi_name,
    artifact_base_classification⟩
  have hW : (walkFS "" (.dir rn cp)).1 = (walkFS "" (.dir rn cs)).1 ∧
      Dom (walkFS "" (.dir rn cs)).2 (walkFS "" (.dir rn cp)).2 := by
    rw [walkFS_dir, walkFS_dir]
    by_cases hig : ignoredName rn = true
    · rw [if_pos hig, if_pos hig]
      exact walkList_aug haug _
    · rw [if_neg hig, if_neg hig]
      by_cases hnf : endsWithL rn "_files" = true
      · rw [if_pos hnf, if_pos hnf]
        exact ⟨rfl, Dom.nil⟩
      · rw [if_neg hnf, if_neg hnf]
        dsimp only []
        exact ⟨by rw [(walkList_aug haug (joinP "" rn)).1],
          Dom_append Dom.nil (walkList_aug haug (joinP "" rn)).2⟩
  unfold run buildImageList at hrun ⊢
  dsimp only [] at hrun ⊢
  rw [if_neg (Nat.not_lt.mpr hcap2)]
  by_cases hg : (walkFS "" (FS.dir rn cs)).2.length > chanCapacity
  · rw [if_pos hg] at hrun
    exact absurd hrun (by simp)
  rw [if_neg hg] at hrun
  cases hri : runItems E rmOk (walkFS "" (.dir rn cs)).1 (walkFS "" (.dir rn cs)).2 with
  | none =>
    rw [hri] at hrun
    exact absurd hrun (by simp)
  | some rs0 =>
    rw [hri] at hrun
    injection hrun with hpair
    have hbs : (walkFS "" (.dir rn cs)).1 = bs := congrArg Prod.fst hpair
    have hrs : rs0 = rs := congrArg Prod.snd hpair
    obtain ⟨hres, hall⟩ := runItems_some E rmOk _ _ _ hri
    have hall2 := Dom_bucketOK hW.2 _ hall
    rw [hW.1]
    rw [runItems_all E rmOk _ _ hall2]
    refine ⟨resOf E rmOk (walkFS "" (.dir rn cp)).2, ?_, ?_⟩
    · rw [hbs]
    · intro d b
      rw [← hrs, hres]
      exact mLookup_dom E rmOk hW.2 d b

/-- Witness for `c6_second_run_no_reprocess`: the directory `r` holding a
large `a.png` on the first run, and on the second run additionally all five
artifact kinds the pipeline writes for it. -/
theorem c6_second_run_no_reprocess_witness :
    ∃ rsp, run engineLarge rmAlways (.dir "r"
        [.file "a-display.jpg", .file "a-thumbnail.jpg", .file "a.jpg",
         .dir "a_files" [.file "0.jpeg"], .file "a.png", .file "images.json"]) =
      some (["r"], rsp) ∧
      ∀ d b, mLookup rsp d b =
        mLookup [("r", "a", (processImage engineLarge rmAlways ⟨"r/a.png", "a"⟩).data)] d b := by
  have haug : AugL [FS.file "a.png"]
      [.file "a-display.jpg", .file "a-thumbnail.jpg", .file "a.jpg",
       .dir "a_files" [.file "0.jpeg"], .file "a.png", .file "images.json"] := by
    refine AugL.insFile _ _ _ rfl ?_
    refine AugL.insFile _ _ _ rfl ?_
    refine AugL.insConv "a" _ _ rfl rfl ⟨"a.png", by simp, rfl, rfl, rfl⟩ ?_
    refine AugL.insTiles _ [.file "0.jpeg"] _ _ rfl rfl ?_
    refine AugL.keepFile _ _ _ ?_
    exact AugL.insFile _ _ _ rfl AugL.nil
  have hrun : run engineLarge rmAlways (.dir "r" [.file "a.png"]) =
      some (["r"], [("r", "a", (processImage engineLarge rmAlways ⟨"r/a.png", "a"⟩).data)]) := rfl
  exact (c6_second_run_no_reprocess engineLarge rmAlways "r" _ _ _ _ haug (by decide) hrun).1


end ImageProc
